import Mathlib

/-!
Shallow embedding of the segmented virtual-memory core of the `risky` CPU
emulator (`src/vm.rs`, with the region type and loader-side data construction
from `src/elf.rs`), together with proofs about the claims of its
specification.  `usize` values are modelled as `Nat` (none of the verified
operations can overflow a `usize` in a way the claims depend on), byte buffers
as `List Nat`, and the `BTreeMap<usize, Segment>` as an association list kept
sorted by key.
-/

namespace Risky

/-- Protection bits of a segment, from `elf.rs`: three capability flags
readable / writable / executable. -/
structure Protection where
  r : Bool
  w : Bool
  x : Bool
deriving DecidableEq

/-- Modelled from the spec: the `BitAnd` impl for `Protection` is used by
`check_protection` (`required & available == required`) but is missing from the
provided sources; per the spec a protection is a set of capability bits, so
`&` is the componentwise Boolean "and" (and `==` is structural equality). -/
def Protection.band (a b : Protection) : Protection :=
  ⟨a.r && b.r, a.w && b.w, a.x && b.x⟩

/-- Segment from `elf.rs`: a contiguous mapped byte region. -/
structure Segment where
  start : Nat
  protection : Protection
  data : List Nat
deriving DecidableEq

/-- One-past-the-end address of a segment: `start + data.len()`. -/
def segEnd (s : Segment) : Nat := s.start + s.data.length

/-- Error enum from `vm.rs`. -/
inductive Error where
  | InsertOverlap (new : Nat) (overlapping : List Nat)
  | SliceOutOfBounds (addr : Nat) (len : Nat)
  | Protection (addr : Nat) (available : Protection) (required : Protection)
  | UnmappedAddress (addr : Nat)
deriving DecidableEq

/-- Model of `BTreeMap<usize, Segment>`: an association list that the map
operations below keep sorted by strictly increasing key. -/
structure VirtualMemory where
  segments : List (Nat × Segment)
deriving DecidableEq

/-- The `Default` instance: an empty map. -/
def VirtualMemory.empty : VirtualMemory := ⟨[]⟩

/-- `BTreeMap::insert`: insert at the sorted position, replacing an entry with
an equal key. -/
def btreeInsert (k : Nat) (v : Segment) : List (Nat × Segment) → List (Nat × Segment)
  | [] => [(k, v)]
  | e :: rest =>
    if k < e.1 then (k, v) :: e :: rest
    else if k = e.1 then (k, v) :: rest
    else e :: btreeInsert k v rest

/-- `BTreeMap::remove`: drop the entry with the given key, if present. -/
def btreeRemove (k : Nat) : List (Nat × Segment) → List (Nat × Segment)
  | [] => []
  | e :: rest => if k = e.1 then rest else e :: btreeRemove k rest

/-- `BTreeMap::get`: find the entry with the given key. -/
def btreeGet (k : Nat) : List (Nat × Segment) → Option Segment
  | [] => none
  | e :: rest => if k = e.1 then some e.2 else btreeGet k rest

/-- In-place mutation through `BTreeMap::get_mut`: replace the value stored at
a key, leaving the key structure untouched. -/
def btreeSet (k : Nat) (v : Segment) : List (Nat × Segment) → List (Nat × Segment)
  | [] => []
  | e :: rest => if k = e.1 then (k, v) :: rest else e :: btreeSet k v rest

/-- `self.segments.range(..=addr).last()`: the last entry, in map order, whose
key is at most `addr`. -/
def lastEntryLE (addr : Nat) : List (Nat × Segment) → Option (Nat × Segment)
  | [] => none
  | e :: rest =>
    if e.1 ≤ addr then
      match lastEntryLE addr rest with
      | some e2 => some e2
      | none => some e
    else lastEntryLE addr rest

/-- `self.segments.range(lo..hi).map(|(&i, _)| i)`: the keys lying in the
half-open interval `[lo, hi)`, in map order. -/
def rangeKeys (l : List (Nat × Segment)) (lo hi : Nat) : List Nat :=
  (l.filter fun e => decide (lo ≤ e.1 ∧ e.1 < hi)).map Prod.fst

/-- `VirtualMemory::check_protection`. -/
def VirtualMemory.check_protection (addr : Nat) (available required : Protection) :
    Except Error Unit :=
  if Protection.band required available = required then Except.ok ()
  else Except.error (Error.Protection addr available required)

/-- `VirtualMemory::get_segment_key`. -/
def VirtualMemory.get_segment_key (vm : VirtualMemory) (addr : Nat) : Option Nat :=
  match lastEntryLE addr vm.segments with
  | none => none
  | some e =>
    if addr ≥ e.2.start ∧ addr < e.2.start + e.2.data.length then some e.1 else none

/-- `VirtualMemory::get_segment` (and `get_mut_segment`, which performs the
same lookup). -/
def VirtualMemory.get_segment (vm : VirtualMemory) (addr : Nat) : Except Error Segment :=
  match vm.get_segment_key addr with
  | none => Except.error (Error.UnmappedAddress addr)
  | some key =>
    match btreeGet key vm.segments with
    | none => Except.error (Error.UnmappedAddress addr)
    | some seg => Except.ok seg

/-- `VirtualMemory::read`. -/
def VirtualMemory.read (vm : VirtualMemory) (addr : Nat) : Except Error Nat :=
  match vm.get_segment addr with
  | Except.error e => Except.error e
  | Except.ok seg =>
    let i := addr - seg.start
    match VirtualMemory.check_protection addr seg.protection ⟨true, false, false⟩ with
    | Except.error e => Except.error e
    | Except.ok _ => Except.ok (seg.data.getD i 0)

/-- `VirtualMemory::read_slice`; the output buffer is returned rather than
passed in by mutable reference, and `len` is the buffer's length. -/
def VirtualMemory.read_slice (vm : VirtualMemory) (addr len : Nat) :
    Except Error (List Nat) :=
  match vm.get_segment addr with
  | Except.error e => Except.error e
  | Except.ok seg =>
    let i := addr - seg.start
    match VirtualMemory.check_protection addr seg.protection ⟨true, false, false⟩ with
    | Except.error e => Except.error e
    | Except.ok _ =>
      if addr + len > seg.start + seg.data.length then
        Except.error (Error.SliceOutOfBounds addr len)
      else
        Except.ok ((seg.data.drop i).take len)

/-- `VirtualMemory::write`; `&mut self` is modelled by returning the new state
together with the `Result` (`none` = `Ok(())`). -/
def VirtualMemory.write (vm : VirtualMemory) (addr val : Nat) :
    VirtualMemory × Option Error :=
  match vm.get_segment_key addr with
  | none => (vm, some (Error.UnmappedAddress addr))
  | some key =>
    match btreeGet key vm.segments with
    | none => (vm, some (Error.UnmappedAddress addr))
    | some seg =>
      let i := addr - seg.start
      match VirtualMemory.check_protection addr seg.protection ⟨false, true, false⟩ with
      | Except.error e => (vm, some e)
      | Except.ok _ =>
        (⟨btreeSet key { seg with data := seg.data.set i val } vm.segments⟩, none)

/-- `VirtualMemory::write_slice`. -/
def VirtualMemory.write_slice (vm : VirtualMemory) (addr : Nat) (buf : List Nat) :
    VirtualMemory × Option Error :=
  match vm.get_segment_key addr with
  | none => (vm, some (Error.UnmappedAddress addr))
  | some key =>
    match btreeGet key vm.segments with
    | none => (vm, some (Error.UnmappedAddress addr))
    | some seg =>
      let len := buf.length
      let i := addr - seg.start
      match VirtualMemory.check_protection addr seg.protection ⟨false, true, false⟩ with
      | Except.error e => (vm, some e)
      | Except.ok _ =>
        if addr + len > seg.start + seg.data.length then
          (vm, some (Error.SliceOutOfBounds addr len))
        else
          (⟨btreeSet key
              { seg with data := seg.data.take i ++ buf ++ seg.data.drop (i + len) }
              vm.segments⟩, none)

/-- `VirtualMemory::get_overlapping`. -/
def VirtualMemory.get_overlapping (vm : VirtualMemory) (new len : Nat) : List Nat :=
  let e := new + len
  match vm.get_segment new with
  | Except.ok seg =>
    let seg_end := seg.start + seg.data.length
    let r := if seg_end < e then (seg_end, e) else (e, e)
    seg.start :: rangeKeys vm.segments r.1 r.2
  | Except.error _ => rangeKeys vm.segments new e

/-- `VirtualMemory::insert`. -/
def VirtualMemory.insert (vm : VirtualMemory) (segment : Segment) :
    VirtualMemory × Option Error :=
  if segment.data.isEmpty then (vm, none)
  else
    let overlapping := vm.get_overlapping segment.start segment.data.length
    if overlapping.isEmpty then
      (⟨btreeInsert segment.start segment vm.segments⟩, none)
    else
      (vm, some (Error.InsertOverlap segment.start overlapping))

/-- `VirtualMemory::resize_or_unmap_or_split_segment`.  The source `unwrap`s
the lookup of `key`; all call sites pass a key returned by `get_overlapping`,
so the `none` branch (modelled as a no-op) is unreachable there. -/
def VirtualMemory.resize_or_unmap_or_split_segment
    (vm : VirtualMemory) (key del_start del_len : Nat) : VirtualMemory :=
  match btreeGet key vm.segments with
  | none => vm
  | some seg =>
    let orig_start := seg.start
    let orig_len := seg.data.length
    let del_end := del_start + del_len
    let orig_end := orig_start + orig_len
    if del_start ≤ orig_start ∧ del_end ≥ orig_end then
      ⟨btreeRemove key vm.segments⟩
    else if del_start ≤ orig_start ∨ del_end ≥ orig_end then
      let s2 :=
        if orig_start < del_start then
          { seg with data := seg.data.take (del_start - orig_start) }
        else
          { seg with start := del_end, data := seg.data.drop (del_end - orig_start) }
      ⟨btreeInsert s2.start s2 (btreeRemove key vm.segments)⟩
    else if del_start > orig_start ∧ del_end < orig_end then
      let head : Segment :=
        ⟨seg.start, seg.protection, seg.data.take (del_start - orig_start)⟩
      let tail : Segment :=
        ⟨del_end, seg.protection, seg.data.drop (del_end - orig_start)⟩
      ⟨btreeInsert tail.start tail (btreeInsert head.start head (btreeRemove key vm.segments))⟩
    else vm

/-- `VirtualMemory::unmap`. -/
def VirtualMemory.unmap (vm : VirtualMemory) (start len : Nat) :
    VirtualMemory × Option Error :=
  match vm.get_overlapping start len with
  | [] => (vm, none)
  | [k] => (vm.resize_or_unmap_or_split_segment k start len, none)
  | k1 :: k2 :: rest =>
    let vm1 := vm.resize_or_unmap_or_split_segment k1 start len
    let vm2 := vm1.resize_or_unmap_or_split_segment ((k2 :: rest).getLastD 0) start len
    (⟨((k2 :: rest).dropLast).foldl (fun l k => btreeRemove k l) vm2.segments⟩, none)

/-- Modelled byte-level core of the per-entry buffer construction in
`read_elf` (`elf.rs`, the `data = if file_size > 0 ...` block): the container
file is a byte list, `read_exact` of `file_size` bytes at `offset` fails
(`Error::Io`, here `none`) when the container is too short. -/
def segmentData (container : List Nat) (offset file_size memory_size : Nat) :
    Option (List Nat) :=
  if 0 < file_size then
    if offset + file_size ≤ container.length then
      some ((container.drop offset).take file_size)
    else none
  else
    some (List.replicate memory_size 0)

/-- Nonempty intersection of the half-open ranges `[a, a+la)` and `[b, b+lb)`. -/
def rangesIntersect (a la b lb : Nat) : Prop :=
  max a b < min (a + la) (b + lb)

instance (a la b lb : Nat) : Decidable (rangesIntersect a la b lb) :=
  inferInstanceAs (Decidable (max a b < min (a + la) (b + lb)))

instance {ε α : Type} [DecidableEq ε] [DecidableEq α] : DecidableEq (Except ε α) :=
  fun a b =>
    match a, b with
    | Except.ok x, Except.ok y =>
      if h : x = y then isTrue (congrArg Except.ok h)
      else isFalse fun hh => h (Except.ok.inj hh)
    | Except.error x, Except.error y =>
      if h : x = y then isTrue (congrArg Except.error h)
      else isFalse fun hh => h (Except.error.inj hh)
    | Except.ok _, Except.error _ => isFalse fun hh => Except.noConfusion hh
    | Except.error _, Except.ok _ => isFalse fun hh => Except.noConfusion hh

/-- Well-formedness of the modelled `BTreeMap`: keys strictly sorted, each key
equal to its segment's `start`, no empty segment, and pairwise disjoint
ranges. -/
def WF (vm : VirtualMemory) : Prop :=
  vm.segments.Pairwise (fun a b => a.1 < b.1)
  ∧ (∀ e ∈ vm.segments, e.1 = e.2.start)
  ∧ (∀ e ∈ vm.segments, e.2.data ≠ [])
  ∧ vm.segments.Pairwise (fun a b => segEnd a.2 ≤ b.2.start ∨ segEnd b.2 ≤ a.2.start)

instance (vm : VirtualMemory) : Decidable (WF vm) :=
  inferInstanceAs (Decidable
    (vm.segments.Pairwise (fun a b : Nat × Segment => a.1 < b.1)
      ∧ (∀ e ∈ vm.segments, e.1 = e.2.start)
      ∧ (∀ e ∈ vm.segments, e.2.data ≠ [])
      ∧ vm.segments.Pairwise
          (fun a b : Nat × Segment => segEnd a.2 ≤ b.2.start ∨ segEnd b.2 ≤ a.2.start)))

/-- States reachable from the empty address space through successful `insert`
and `unmap` calls. -/
inductive Reachable : VirtualMemory → Prop where
  | empty : Reachable VirtualMemory.empty
  | insert {vm vm2 seg} : Reachable vm → vm.insert seg = (vm2, none) → Reachable vm2
  | unmap {vm vm2 s l} : Reachable vm → vm.unmap s l = (vm2, none) → Reachable vm2

/-- Keys of the association list are strictly increasing. -/
def keysSorted (l : List (Nat × Segment)) : Prop :=
  l.Pairwise (fun a b => a.1 < b.1)

/-- Entry-level range disjointness used in `WF`. -/
def entryDisj (a b : Nat × Segment) : Prop :=
  segEnd a.2 ≤ b.2.start ∨ segEnd b.2 ≤ a.2.start

/-- Specification of the overlap set computed by `get_overlapping`: under `WF`
a key is reported iff it stores a segment that either contains the candidate
start address or starts inside the candidate range. -/
def overlapsSpec (vm : VirtualMemory) (new len k : Nat) : Prop :=
  ∃ seg, (k, seg) ∈ vm.segments ∧
    ((seg.start ≤ new ∧ new < segEnd seg) ∨ (new ≤ seg.start ∧ seg.start < new + len))

/-- Protection value `0`: `{r:false, w:false, x:false}`. -/
def protNone : Protection := ⟨false, false, false⟩

/-- Full read/write/execute protection (`0b111`). -/
def protAll : Protection := ⟨true, true, true⟩

/-- Write-only protection. -/
def protW : Protection := ⟨false, true, false⟩

/-- Three 3-byte segments at `10`, `20`, `30`, the state of the spec's
multi-segment examples. -/
def vmMulti : VirtualMemory :=
  ⟨[(10, ⟨10, protNone, [1, 2, 3]⟩), (20, ⟨20, protNone, [4, 5, 6]⟩),
    (30, ⟨30, protNone, [7, 8, 9]⟩)]⟩

/-- A single 3-byte segment `[10, 13)`. -/
def vmOne : VirtualMemory := ⟨[(10, ⟨10, protNone, [1, 2, 3]⟩)]⟩

/-- A single write-only byte mapped at `0`. -/
def vmWriteOnly : VirtualMemory := ⟨[(0, ⟨0, protW, [7]⟩)]⟩

/-- A readable/writable 6-byte segment at `1234` with an adjacent mapped
segment at `1240`. -/
def vmSix : VirtualMemory :=
  ⟨[(1234, ⟨1234, protAll, [1, 2, 3, 4, 5, 6]⟩),
    (1240, ⟨1240, protAll, [9, 9, 9, 9]⟩)]⟩

/-- An unreadable, unwritable 2-byte segment at `0`. -/
def vmNoAccess : VirtualMemory := ⟨[(0, ⟨0, protNone, [1, 2]⟩)]⟩

/-- A 6-byte readable/writable segment `[1234, 1240)` with bytes 1..6. -/
def vmInterior : VirtualMemory := ⟨[(1234, ⟨1234, protAll, [1, 2, 3, 4, 5, 6]⟩)]⟩

theorem entryDisj_symm : Symmetric entryDisj := fun _ _ h => h.symm

theorem wf_sorted {vm : VirtualMemory} (h : WF vm) : keysSorted vm.segments := h.1

theorem wf_keys {vm : VirtualMemory} (h : WF vm) : ∀ e ∈ vm.segments, e.1 = e.2.start :=
  h.2.1

theorem wf_nonempty {vm : VirtualMemory} (h : WF vm) : ∀ e ∈ vm.segments, e.2.data ≠ [] :=
  h.2.2.1

theorem wf_disj {vm : VirtualMemory} (h : WF vm) : vm.segments.Pairwise entryDisj :=
  h.2.2.2

theorem btreeGet_mem {k : Nat} {v : Segment} :
    ∀ {l : List (Nat × Segment)}, btreeGet k l = some v → (k, v) ∈ l := by
  intro l
  induction l with
  | nil => intro h; simp [btreeGet] at h
  | cons e rest ih =>
    obtain ⟨k2, v2⟩ := e
    intro h
    by_cases hk : k = k2
    · subst hk
      simp [btreeGet] at h
      subst h
      exact List.mem_cons_self _ _
    · simp [btreeGet, hk] at h
      exact List.mem_cons_of_mem _ (ih h)

theorem btreeGet_eq_none_iff {k : Nat} {l : List (Nat × Segment)} :
    btreeGet k l = none ↔ ∀ e ∈ l, e.1 ≠ k := by
  induction l with
  | nil => simp [btreeGet]
  | cons e rest ih =>
    by_cases hk : k = e.1
    · simp [btreeGet, hk]
    · simp [btreeGet, hk, ih]
      intro _
      exact fun h => hk h.symm

theorem btreeGet_of_mem {k : Nat} {v : Segment} :
    ∀ {l : List (Nat × Segment)}, keysSorted l → (k, v) ∈ l → btreeGet k l = some v := by
  intro l
  induction l with
  | nil => intro _ h; simp at h
  | cons e rest ih =>
    intro hs hm
    rcases List.mem_cons.1 hm with h | h
    · rw [← h]; simp [btreeGet]
    · by_cases hk : k = e.1
      · exfalso
        have := (List.pairwise_cons.1 hs).1 _ h
        simp at this
        omega
      · simp [btreeGet, hk]
        exact ih (List.pairwise_cons.1 hs).2 h

theorem btreeInsert_mem {k : Nat} {v : Segment} {e : Nat × Segment} :
    ∀ {l : List (Nat × Segment)}, e ∈ btreeInsert k v l → e = (k, v) ∨ e ∈ l := by
  intro l
  induction l with
  | nil => intro h; simp [btreeInsert] at h; left; exact h
  | cons e2 rest ih =>
    intro h
    unfold btreeInsert at h
    by_cases h1 : k < e2.1
    · rw [if_pos h1] at h
      rcases List.mem_cons.1 h with h | h
      · left; exact h
      · right; exact h
    · rw [if_neg h1] at h
      by_cases h2 : k = e2.1
      · rw [if_pos h2] at h
        rcases List.mem_cons.1 h with h | h
        · left; exact h
        · right; exact List.mem_cons_of_mem _ h
      · rw [if_neg h2] at h
        rcases List.mem_cons.1 h with h | h
        · right; rw [h]; exact List.mem_cons_self _ _
        · rcases ih h with h3 | h3
          · left; exact h3
          · right; exact List.mem_cons_of_mem _ h3

theorem btreeInsert_sorted {k : Nat} {v : Segment} :
    ∀ {l : List (Nat × Segment)}, keysSorted l → keysSorted (btreeInsert k v l) := by
  intro l
  induction l with
  | nil => intro _; simp [btreeInsert, keysSorted]
  | cons e rest ih =>
    intro hs
    have hcons := List.pairwise_cons.1 hs
    unfold btreeInsert
    by_cases h1 : k < e.1
    · rw [if_pos h1]
      refine List.pairwise_cons.2 ⟨?_, hs⟩
      intro e2 he2
      rcases List.mem_cons.1 he2 with h | h
      · rw [h]; exact h1
      · exact lt_trans h1 (hcons.1 _ h)
    · rw [if_neg h1]
      by_cases h2 : k = e.1
      · rw [if_pos h2]
        refine List.pairwise_cons.2 ⟨?_, hcons.2⟩
        intro e2 he2
        have := hcons.1 _ he2
        simpa [h2] using this
      · rw [if_neg h2]
        refine List.pairwise_cons.2 ⟨?_, ih hcons.2⟩
        intro e2 he2
        rcases btreeInsert_mem he2 with h | h
        · rw [h]; simp; omega
        · exact hcons.1 _ h

theorem btreeInsert_pairwise {R : Nat × Segment → Nat × Segment → Prop}
    {k : Nat} {v : Segment} :
    ∀ {l : List (Nat × Segment)}, l.Pairwise R → (∀ e ∈ l, R (k, v) e) →
      (∀ e ∈ l, R e (k, v)) → (btreeInsert k v l).Pairwise R := by
  intro l
  induction l with
  | nil => intro _ _ _; simp [btreeInsert]
  | cons e rest ih =>
    intro hp hfwd hbwd
    have hcons := List.pairwise_cons.1 hp
    unfold btreeInsert
    by_cases h1 : k < e.1
    · rw [if_pos h1]
      exact List.pairwise_cons.2 ⟨fun e2 he2 => hfwd _ he2, hp⟩
    · rw [if_neg h1]
      by_cases h2 : k = e.1
      · rw [if_pos h2]
        refine List.pairwise_cons.2 ⟨?_, hcons.2⟩
        intro e2 he2
        exact hfwd _ (List.mem_cons_of_mem _ he2)
      · rw [if_neg h2]
        refine List.pairwise_cons.2 ⟨?_, ?_⟩
        · intro e2 he2
          rcases btreeInsert_mem he2 with h | h
          · rw [h]; exact hbwd _ (List.mem_cons_self _ _)
          · exact hcons.1 _ h
        · exact ih hcons.2 (fun e2 he2 => hfwd _ (List.mem_cons_of_mem _ he2))
            (fun e2 he2 => hbwd _ (List.mem_cons_of_mem _ he2))

theorem btreeRemove_sublist {k : Nat} :
    ∀ {l : List (Nat × Segment)}, (btreeRemove k l).Sublist l := by
  intro l
  induction l with
  | nil => simp [btreeRemove]
  | cons e rest ih =>
    unfold btreeRemove
    by_cases h : k = e.1
    · simp only [h, if_true]
      exact List.sublist_cons_self _ _
    · simp only [h, if_false]
      exact List.Sublist.cons₂ _ ih

theorem btreeGet_insert_ne {k k2 : Nat} {v : Segment} (hne : k ≠ k2) :
    ∀ {l : List (Nat × Segment)}, btreeGet k (btreeInsert k2 v l) = btreeGet k l := by
  intro l
  induction l with
  | nil => simp [btreeInsert, btreeGet, hne]
  | cons e rest ih =>
    unfold btreeInsert
    by_cases h1 : k2 < e.1
    · simp only [h1, if_true]
      simp [btreeGet, hne]
    · by_cases h2 : k2 = e.1
      · simp only [h1, if_false, h2, if_true]
        have : k ≠ e.1 := h2 ▸ hne
        simp [btreeGet, hne, this]
      · simp only [h1, if_false, h2, if_false]
        by_cases h3 : k = e.1
        · simp [btreeGet, h3]
        · simp [btreeGet, h3, ih]

theorem btreeGet_remove_ne {k k2 : Nat} (hne : k ≠ k2) :
    ∀ {l : List (Nat × Segment)}, btreeGet k (btreeRemove k2 l) = btreeGet k l := by
  intro l
  induction l with
  | nil => simp [btreeRemove]
  | cons e rest ih =>
    unfold btreeRemove
    by_cases h1 : k2 = e.1
    · simp only [h1, if_true]
      have : k ≠ e.1 := h1 ▸ hne
      simp [btreeGet, this]
    · simp only [h1, if_false]
      by_cases h3 : k = e.1
      · simp [btreeGet, h3]
      · simp [btreeGet, h3, ih]

theorem btreeGet_remove_self {k : Nat} :
    ∀ {l : List (Nat × Segment)}, keysSorted l → btreeGet k (btreeRemove k l) = none := by
  intro l
  induction l with
  | nil => intro _; simp [btreeRemove, btreeGet]
  | cons e rest ih =>
    intro hs
    have hcons := List.pairwise_cons.1 hs
    unfold btreeRemove
    by_cases h1 : k = e.1
    · simp only [h1, if_true]
      rw [btreeGet_eq_none_iff]
      intro e2 he2
      have := hcons.1 _ he2
      omega
    · simp only [h1, if_false]
      simp [btreeGet, h1]
      exact ih hcons.2

theorem btreeSet_mem {k : Nat} {v : Segment} {e : Nat × Segment} :
    ∀ {l : List (Nat × Segment)}, e ∈ btreeSet k v l → e = (k, v) ∨ e ∈ l := by
  intro l
  induction l with
  | nil => intro h; simp [btreeSet] at h
  | cons e2 rest ih =>
    intro h
    unfold btreeSet at h
    by_cases h1 : k = e2.1
    · rw [if_pos h1] at h
      rcases List.mem_cons.1 h with h | h
      · left; exact h
      · right; exact List.mem_cons_of_mem _ h
    · rw [if_neg h1] at h
      rcases List.mem_cons.1 h with h | h
      · right; rw [h]; exact List.mem_cons_self _ _
      · rcases ih h with h3 | h3
        · left; exact h3
        · right; exact List.mem_cons_of_mem _ h3

theorem btreeSet_mem_self {k : Nat} {v v0 : Segment} :
    ∀ {l : List (Nat × Segment)}, (k, v0) ∈ l → (k, v) ∈ btreeSet k v l := by
  intro l
  induction l with
  | nil => intro h; simp at h
  | cons e rest ih =>
    intro hm
    unfold btreeSet
    by_cases h1 : k = e.1
    · rw [if_pos h1]; exact List.mem_cons_self _ _
    · rw [if_neg h1]
      rcases List.mem_cons.1 hm with h | h
      · exfalso; apply h1; rw [← h]
      · exact List.mem_cons_of_mem _ (ih h)

theorem btreeSet_map_fst {k : Nat} {v : Segment} :
    ∀ {l : List (Nat × Segment)}, (btreeSet k v l).map Prod.fst = l.map Prod.fst := by
  intro l
  induction l with
  | nil => simp [btreeSet]
  | cons e rest ih =>
    unfold btreeSet
    by_cases h1 : k = e.1
    · rw [if_pos h1]; simp [h1]
    · rw [if_neg h1]; simp [ih]

theorem keysSorted_of_map_fst_eq {l l2 : List (Nat × Segment)}
    (h : l2.map Prod.fst = l.map Prod.fst) (hs : keysSorted l) : keysSorted l2 := by
  unfold keysSorted at hs ⊢
  rw [← List.pairwise_map (f := Prod.fst)] at hs ⊢
  rw [h]
  exact hs

theorem btreeSet_pairwise_disj {k : Nat} {v v0 : Segment}
    (hst : v.start = v0.start) (hln : v.data.length = v0.data.length) :
    ∀ {l : List (Nat × Segment)}, keysSorted l → (k, v0) ∈ l →
      l.Pairwise entryDisj → (btreeSet k v l).Pairwise entryDisj := by
  intro l
  induction l with
  | nil => intro _ _ _; simp [btreeSet]
  | cons e rest ih =>
    intro hs hm hp
    have hscons := List.pairwise_cons.1 hs
    have hpcons := List.pairwise_cons.1 hp
    unfold btreeSet
    by_cases h1 : k = e.1
    · rw [if_pos h1]
      have he : e = (k, v0) := by
        rcases List.mem_cons.1 hm with h | h
        · rw [h]
        · exfalso
          have := hscons.1 _ h
          simp at this
          omega
      refine List.pairwise_cons.2 ⟨?_, hpcons.2⟩
      intro e2 he2
      have hd : entryDisj (k, v0) e2 := by rw [← he]; exact hpcons.1 _ he2
      unfold entryDisj segEnd at hd ⊢
      simp only at hd ⊢
      omega
    · rw [if_neg h1]
      have hm2 : (k, v0) ∈ rest := by
        rcases List.mem_cons.1 hm with h | h
        · exfalso; apply h1; rw [← h]
        · exact h
      refine List.pairwise_cons.2 ⟨?_, ih hscons.2 hm2 hpcons.2⟩
      intro e2 he2
      rcases btreeSet_mem he2 with h | h
      · have hd : entryDisj e (k, v0) := hpcons.1 _ hm2
        rw [h]
        unfold entryDisj segEnd at hd ⊢
        simp only at hd ⊢
        omega
      · exact hpcons.1 _ h

theorem lastEntryLE_mem {addr : Nat} {e : Nat × Segment} :
    ∀ {l : List (Nat × Segment)}, lastEntryLE addr l = some e → e ∈ l ∧ e.1 ≤ addr := by
  intro l
  induction l with
  | nil => intro h; simp [lastEntryLE] at h
  | cons e2 rest ih =>
    intro h
    unfold lastEntryLE at h
    by_cases h1 : e2.1 ≤ addr
    · rw [if_pos h1] at h
      cases hrec : lastEntryLE addr rest with
      | none =>
        rw [hrec] at h
        simp at h
        rw [← h]
        exact ⟨List.mem_cons_self _ _, h1⟩
      | some e3 =>
        rw [hrec] at h
        simp at h
        subst h
        obtain ⟨hmem, hle⟩ := ih hrec
        exact ⟨List.mem_cons_of_mem _ hmem, hle⟩
    · rw [if_neg h1] at h
      obtain ⟨hmem, hle⟩ := ih h
      exact ⟨List.mem_cons_of_mem _ hmem, hle⟩

theorem lastEntryLE_none {addr : Nat} :
    ∀ {l : List (Nat × Segment)}, (∀ e ∈ l, ¬ e.1 ≤ addr) → lastEntryLE addr l = none := by
  intro l
  induction l with
  | nil => intro _; rfl
  | cons e rest ih =>
    intro h
    unfold lastEntryLE
    rw [if_neg (h _ (List.mem_cons_self _ _))]
    exact ih fun e2 he2 => h _ (List.mem_cons_of_mem _ he2)

theorem lastEntryLE_eq {addr k : Nat} {v : Segment} :
    ∀ {l : List (Nat × Segment)}, keysSorted l → (k, v) ∈ l → k ≤ addr →
      (∀ e ∈ l, k < e.1 → addr < e.1) → lastEntryLE addr l = some (k, v) := by
  intro l
  induction l with
  | nil => intro _ h; simp at h
  | cons e rest ih =>
    intro hs hm hkle hmax
    have hscons := List.pairwise_cons.1 hs
    unfold lastEntryLE
    rcases List.mem_cons.1 hm with h | h
    · rw [← h]
      simp only
      rw [if_pos hkle]
      have hnone : lastEntryLE addr rest = none := by
        apply lastEntryLE_none
        intro e2 he2
        have h1 : k < e2.1 := by
          have := hscons.1 _ he2
          rw [← h] at this
          exact this
        have := hmax _ (List.mem_cons_of_mem _ he2) h1
        omega
      rw [hnone]
    · have hlt : e.1 < k := hscons.1 _ h
      rw [if_pos (le_trans (le_of_lt hlt) hkle)]
      rw [ih hscons.2 h hkle fun e2 he2 => hmax _ (List.mem_cons_of_mem _ he2)]

theorem contains_unique {vm : VirtualMemory} (hwf : WF vm) {a b : Nat × Segment}
    {addr : Nat} (ha : a ∈ vm.segments) (hb : b ∈ vm.segments)
    (hca : a.2.start ≤ addr ∧ addr < segEnd a.2)
    (hcb : b.2.start ≤ addr ∧ addr < segEnd b.2) : a = b := by
  by_contra hne
  have hd := (wf_disj hwf).forall entryDisj_symm ha hb hne
  unfold entryDisj segEnd at hd
  unfold segEnd at hca hcb
  omega

theorem get_segment_ok {vm : VirtualMemory} {addr : Nat} {seg : Segment} (hwf : WF vm)
    (h : vm.get_segment addr = Except.ok seg) :
    (seg.start, seg) ∈ vm.segments ∧ seg.start ≤ addr ∧ addr < segEnd seg := by
  unfold VirtualMemory.get_segment VirtualMemory.get_segment_key at h
  cases hle : lastEntryLE addr vm.segments with
  | none => rw [hle] at h; simp at h
  | some e =>
    rw [hle] at h
    simp only [] at h
    obtain ⟨hmem, hkle⟩ := lastEntryLE_mem hle
    by_cases hc : addr ≥ e.2.start ∧ addr < e.2.start + e.2.data.length
    · rw [if_pos hc] at h
      simp only [] at h
      have hget : btreeGet e.1 vm.segments = some e.2 := by
        apply btreeGet_of_mem (wf_sorted hwf)
        rw [Prod.mk.eta]
        exact hmem
      rw [hget] at h
      simp at h
      have hk := wf_keys hwf _ hmem
      rw [← h]
      refine ⟨?_, hc.1, hc.2⟩
      have : (e.2.start, e.2) = e := by rw [← hk, Prod.mk.eta]
      rw [this]
      exact hmem
    · rw [if_neg hc] at h
      simp only [] at h
      simp at h

theorem get_segment_of_contains {vm : VirtualMemory} {k addr : Nat} {seg : Segment}
    (hwf : WF vm) (hm : (k, seg) ∈ vm.segments) (h1 : seg.start ≤ addr)
    (h2 : addr < segEnd seg) : vm.get_segment addr = Except.ok seg := by
  have hk : k = seg.start := wf_keys hwf _ hm
  have hmax : ∀ e ∈ vm.segments, k < e.1 → addr < e.1 := by
    intro e he hlt
    have hne : (k, seg) ≠ e := by
      intro hcontra
      rw [← hcontra] at hlt
      omega
    have hd := (wf_disj hwf).forall entryDisj_symm hm he hne
    have hke := wf_keys hwf _ he
    have hnee := wf_nonempty hwf _ he
    have hpos : 0 < e.2.data.length := List.length_pos_of_ne_nil hnee
    unfold entryDisj segEnd at hd
    unfold segEnd at h2
    simp only at hd
    omega
  have hlast : lastEntryLE addr vm.segments = some (k, seg) :=
    lastEntryLE_eq (wf_sorted hwf) hm (by omega) hmax
  unfold VirtualMemory.get_segment VirtualMemory.get_segment_key
  rw [hlast]
  simp only []
  rw [if_pos ⟨h1, h2⟩]
  simp only []
  rw [btreeGet_of_mem (wf_sorted hwf) hm]

theorem get_segment_unmapped {vm : VirtualMemory} {addr : Nat}
    (h : ∀ e ∈ vm.segments, ¬ (e.2.start ≤ addr ∧ addr < segEnd e.2)) :
    vm.get_segment addr = Except.error (Error.UnmappedAddress addr) := by
  unfold VirtualMemory.get_segment VirtualMemory.get_segment_key
  cases hle : lastEntryLE addr vm.segments with
  | none => rfl
  | some e =>
    simp only []
    obtain ⟨hmem, hkle⟩ := lastEntryLE_mem hle
    have hne := h _ hmem
    unfold segEnd at hne
    rw [if_neg (fun hc : addr ≥ e.2.start ∧ addr < e.2.start + e.2.data.length =>
      hne ⟨hc.1, hc.2⟩)]

theorem rangeKeys_mem {l : List (Nat × Segment)} {lo hi x : Nat} :
    x ∈ rangeKeys l lo hi ↔ ∃ v, (x, v) ∈ l ∧ lo ≤ x ∧ x < hi := by
  unfold rangeKeys
  constructor
  · intro h
    obtain ⟨e, he, hx⟩ := List.mem_map.1 h
    obtain ⟨hmem, hcond⟩ := List.mem_filter.1 he
    rw [decide_eq_true_eq] at hcond
    subst hx
    exact ⟨e.2, by rw [Prod.mk.eta]; exact hmem, hcond.1, hcond.2⟩
  · rintro ⟨v, hmem, hlo, hhi⟩
    exact List.mem_map.2 ⟨(x, v), List.mem_filter.2 ⟨hmem, by simp [hlo, hhi]⟩, rfl⟩

theorem rangeKeys_sorted {l : List (Nat × Segment)} (hs : keysSorted l) (lo hi : Nat) :
    (rangeKeys l lo hi).Pairwise (fun a b => a < b) := by
  unfold rangeKeys
  apply List.Pairwise.sublist (List.Sublist.map Prod.fst (List.filter_sublist l))
  rw [List.pairwise_map]
  exact hs

theorem get_overlapping_mem {vm : VirtualMemory} {new len k : Nat} (hwf : WF vm) :
    k ∈ vm.get_overlapping new len ↔ overlapsSpec vm new len k := by
  unfold VirtualMemory.get_overlapping
  cases hseg : vm.get_segment new with
  | error e0 =>
    simp only []
    rw [rangeKeys_mem]
    constructor
    · rintro ⟨v, hmem, hlo, hhi⟩
      have hk := wf_keys hwf _ hmem
      simp only at hk
      exact ⟨v, hmem, Or.inr ⟨by omega, by omega⟩⟩
    · rintro ⟨seg, hmem, hd | hd⟩
      · exfalso
        have := get_segment_of_contains hwf hmem hd.1 hd.2
        rw [hseg] at this
        exact Except.noConfusion this
      · have hk := wf_keys hwf _ hmem
        simp only at hk
        obtain ⟨hd1, hd2⟩ := hd
        exact ⟨seg, hmem, by omega, by omega⟩
  | ok seg0 =>
    obtain ⟨hmem0, h01, h02⟩ := get_segment_ok hwf hseg
    have hpos0 : 0 < seg0.data.length :=
      List.length_pos_of_ne_nil (wf_nonempty hwf _ hmem0)
    simp only []
    by_cases hcase : seg0.start + seg0.data.length < new + len
    · rw [if_pos hcase]
      simp only [List.mem_cons, rangeKeys_mem]
      constructor
      · rintro (h | ⟨v, hmem, hlo, hhi⟩)
        · subst h
          exact ⟨seg0, hmem0, Or.inl ⟨h01, h02⟩⟩
        · have hk := wf_keys hwf _ hmem
          simp only at hk
          refine ⟨v, hmem, Or.inr ⟨?_, ?_⟩⟩
          · unfold segEnd at h02
            omega
          · omega
      · rintro ⟨seg, hmem, hd | hd⟩
        · left
          have heq := contains_unique hwf hmem hmem0
            (a := (k, seg)) ⟨hd.1, hd.2⟩ ⟨h01, h02⟩
          have := congrArg Prod.fst heq
          simpa using this
        · by_cases heq : (k, seg) = (seg0.start, seg0)
          · left
            have := congrArg Prod.fst heq
            simpa using this
          · right
            have hdisj := (wf_disj hwf).forall entryDisj_symm hmem hmem0 heq
            have hk := wf_keys hwf _ hmem
            simp only at hk
            have hnes : seg.data ≠ [] := wf_nonempty hwf _ hmem
            have hposs : 0 < seg.data.length := List.length_pos_of_ne_nil hnes
            unfold entryDisj segEnd at hdisj
            simp only at hdisj
            unfold segEnd at h02
            obtain ⟨hd1, hd2⟩ := hd
            rcases hdisj with hdj | hdj
            · exfalso
              omega
            · exact ⟨seg, hmem, by omega, by omega⟩
    · rw [if_neg hcase]
      simp only [List.mem_cons, rangeKeys_mem]
      constructor
      · rintro (h | ⟨v, hmem, hlo, hhi⟩)
        · subst h
          exact ⟨seg0, hmem0, Or.inl ⟨h01, h02⟩⟩
        · exfalso; omega
      · rintro ⟨seg, hmem, hd | hd⟩
        · left
          have heq := contains_unique hwf hmem hmem0
            (a := (k, seg)) ⟨hd.1, hd.2⟩ ⟨h01, h02⟩
          have := congrArg Prod.fst heq
          simpa using this
        · by_cases heq : (k, seg) = (seg0.start, seg0)
          · left
            have := congrArg Prod.fst heq
            simpa using this
          · exfalso
            have hdisj := (wf_disj hwf).forall entryDisj_symm hmem hmem0 heq
            have hk := wf_keys hwf _ hmem
            simp only at hk
            have hnes : seg.data ≠ [] := wf_nonempty hwf _ hmem
            have hposs : 0 < seg.data.length := List.length_pos_of_ne_nil hnes
            unfold entryDisj segEnd at hdisj
            simp only at hdisj
            unfold segEnd at h02
            omega

theorem get_overlapping_sorted {vm : VirtualMemory} (new len : Nat) (hwf : WF vm) :
    (vm.get_overlapping new len).Pairwise (fun a b => a < b) := by
  unfold VirtualMemory.get_overlapping
  cases hseg : vm.get_segment new with
  | error e0 =>
    simp only []
    exact rangeKeys_sorted (wf_sorted hwf) _ _
  | ok seg0 =>
    obtain ⟨hmem0, h01, h02⟩ := get_segment_ok hwf hseg
    simp only []
    by_cases hcase : seg0.start + seg0.data.length < new + len
    · rw [if_pos hcase]
      refine List.pairwise_cons.2 ⟨?_, rangeKeys_sorted (wf_sorted hwf) _ _⟩
      intro x hx
      obtain ⟨v, _, hlo, _⟩ := rangeKeys_mem.1 hx
      unfold segEnd at h02
      omega
    · rw [if_neg hcase]
      refine List.pairwise_cons.2 ⟨?_, rangeKeys_sorted (wf_sorted hwf) _ _⟩
      intro x hx
      obtain ⟨v, _, hlo, hhi⟩ := rangeKeys_mem.1 hx
      omega

theorem get_overlapping_nil {vm : VirtualMemory} {new len : Nat} (hwf : WF vm) :
    vm.get_overlapping new len = [] ↔ ∀ k, ¬ overlapsSpec vm new len k := by
  rw [List.eq_nil_iff_forall_not_mem]
  constructor
  · intro h k hk
    exact h k ((get_overlapping_mem hwf).2 hk)
  · intro h k hk
    exact h k ((get_overlapping_mem hwf).1 hk)

theorem wf_of_sublist {l l2 : List (Nat × Segment)} (hsub : l2.Sublist l)
    (hwf : WF ⟨l⟩) : WF ⟨l2⟩ := by
  obtain ⟨hs, hk, hne, hd⟩ := hwf
  exact ⟨hs.sublist hsub, fun e he => hk e (hsub.subset he),
    fun e he => hne e (hsub.subset he), hd.sublist hsub⟩

theorem wf_empty : WF VirtualMemory.empty := by
  unfold WF VirtualMemory.empty
  refine ⟨List.Pairwise.nil, ?_, ?_, List.Pairwise.nil⟩ <;> simp

theorem wf_insert_disjoint {l : List (Nat × Segment)} (s2 : Segment)
    (hwf : WF ⟨l⟩) (hd : ∀ e ∈ l, entryDisj (s2.start, s2) e) (hne : s2.data ≠ []) :
    WF ⟨btreeInsert s2.start s2 l⟩ := by
  obtain ⟨hs, hk, hnel, hdl⟩ := hwf
  refine ⟨btreeInsert_sorted hs, ?_, ?_, ?_⟩
  · intro e he
    rcases btreeInsert_mem he with h | h
    · rw [h]
    · exact hk e h
  · intro e he
    rcases btreeInsert_mem he with h | h
    · rw [h]; exact hne
    · exact hnel e h
  · exact btreeInsert_pairwise hdl hd fun e he => entryDisj_symm (hd e he)

theorem wf_foldl_remove {ks : List Nat} :
    ∀ {l : List (Nat × Segment)}, WF ⟨l⟩ →
      WF ⟨ks.foldl (fun l k => btreeRemove k l) l⟩ := by
  induction ks with
  | nil => intro l h; exact h
  | cons m ms ih =>
    intro l h
    exact ih (wf_of_sublist btreeRemove_sublist h)

theorem btreeGet_none_foldl_remove {k : Nat} (ks : List Nat) :
    ∀ {l : List (Nat × Segment)}, btreeGet k l = none →
      btreeGet k (ks.foldl (fun l k => btreeRemove k l) l) = none := by
  induction ks with
  | nil => intro l h; exact h
  | cons m ms ih =>
    intro l h
    apply ih
    rw [btreeGet_eq_none_iff] at h ⊢
    intro e he
    exact h e (btreeRemove_sublist.subset he)

theorem btreeGet_mem_foldl_remove {k : Nat} {ks : List Nat} (hk : k ∈ ks) :
    ∀ {l : List (Nat × Segment)}, keysSorted l →
      btreeGet k (ks.foldl (fun l k => btreeRemove k l) l) = none := by
  induction ks with
  | nil => simp at hk
  | cons m ms ih =>
    intro l hs
    rw [List.foldl_cons]
    rcases List.mem_cons.1 hk with h | h
    · subst h
      exact btreeGet_none_foldl_remove ms (btreeGet_remove_self hs)
    · exact ih h (List.Pairwise.sublist btreeRemove_sublist hs)

/-- Entry-range disjointness only depends on the segments' extents, so it
transfers to any piece carved out of an existing segment. -/
theorem entryDisj_within {seg s2 : Segment} {a b : Nat} {e : Nat × Segment}
    (hd : entryDisj (a, seg) e) (h1 : seg.start ≤ s2.start)
    (h2 : segEnd s2 ≤ segEnd seg) : entryDisj (b, s2) e := by
  unfold entryDisj at hd ⊢
  unfold segEnd at hd h2 ⊢
  simp only at hd h2 ⊢
  omega

theorem wf_resize {vm : VirtualMemory} {k ds dl : Nat} {seg : Segment} (hwf : WF vm)
    (hget : btreeGet k vm.segments = some seg) (hle : seg.start ≤ ds + dl) :
    WF (vm.resize_or_unmap_or_split_segment k ds dl) := by
  have hmem : (k, seg) ∈ vm.segments := btreeGet_mem hget
  have hk : k = seg.start := wf_keys hwf _ hmem
  have hnes : seg.data ≠ [] := wf_nonempty hwf _ hmem
  have holen : 0 < seg.data.length := List.length_pos_of_ne_nil hnes
  have hwfrem : WF ⟨btreeRemove k vm.segments⟩ :=
    wf_of_sublist btreeRemove_sublist hwf
  have hremne : ∀ e ∈ btreeRemove k vm.segments, e.1 ≠ k := by
    rw [← btreeGet_eq_none_iff]
    exact btreeGet_remove_self (wf_sorted hwf)
  have hdisjrem : ∀ e ∈ btreeRemove k vm.segments, entryDisj (k, seg) e := by
    intro e he
    have hel : e ∈ vm.segments := btreeRemove_sublist.subset he
    have hne : (k, seg) ≠ e := by
      intro hcontra
      exact hremne e he (by rw [← hcontra])
    exact (wf_disj hwf).forall entryDisj_symm hmem hel hne
  unfold VirtualMemory.resize_or_unmap_or_split_segment
  rw [hget]
  simp only []
  by_cases hb1 : ds ≤ seg.start ∧ ds + dl ≥ seg.start + seg.data.length
  · rw [if_pos hb1]
    exact hwfrem
  · rw [if_neg hb1]
    by_cases hb2 : ds ≤ seg.start ∨ ds + dl ≥ seg.start + seg.data.length
    · rw [if_pos hb2]
      by_cases hb3 : seg.start < ds
      · rw [if_pos hb3]
        simp only []
        refine wf_insert_disjoint
          { seg with data := seg.data.take (ds - seg.start) } hwfrem ?_ ?_
        · intro e he
          refine entryDisj_within (hdisjrem e he) ?_ ?_
          · exact Nat.le_refl _
          · unfold segEnd
            simp only [List.length_take]
            omega
        · show seg.data.take (ds - seg.start) ≠ []
          rw [Ne, List.take_eq_nil_iff]
          push_neg
          exact ⟨by omega, hnes⟩
      · rw [if_neg hb3]
        simp only []
        refine wf_insert_disjoint
          { seg with start := ds + dl, data := seg.data.drop (ds + dl - seg.start) }
          hwfrem ?_ ?_
        · intro e he
          refine entryDisj_within (hdisjrem e he) ?_ ?_
          · simp only []
            omega
          · unfold segEnd
            simp only [List.length_drop]
            omega
        · show seg.data.drop (ds + dl - seg.start) ≠ []
          rw [Ne, List.drop_eq_nil_iff]
          push_neg
          omega
    · rw [if_neg hb2]
      by_cases hb4 : ds > seg.start ∧ ds + dl < seg.start + seg.data.length
      · rw [if_pos hb4]
        have hwfhead : WF ⟨btreeInsert seg.start
            ⟨seg.start, seg.protection, seg.data.take (ds - seg.start)⟩
            (btreeRemove k vm.segments)⟩ := by
          refine wf_insert_disjoint
            ⟨seg.start, seg.protection, seg.data.take (ds - seg.start)⟩
            hwfrem ?_ ?_
          · intro e he
            refine entryDisj_within (hdisjrem e he) ?_ ?_
            · exact Nat.le_refl _
            · unfold segEnd
              simp only [List.length_take]
              omega
          · rw [Ne, List.take_eq_nil_iff]
            push_neg
            exact ⟨by omega, hnes⟩
        refine wf_insert_disjoint
          ⟨ds + dl, seg.protection, seg.data.drop (ds + dl - seg.start)⟩
          hwfhead ?_ ?_
        · intro e he
          rcases btreeInsert_mem he with h | h
          · rw [h]
            unfold entryDisj segEnd
            simp only [List.length_take, List.length_drop]
            omega
          · refine entryDisj_within (hdisjrem e h) ?_ ?_
            · simp only []
              omega
            · unfold segEnd
              simp only [List.length_drop]
              omega
        · rw [Ne, List.drop_eq_nil_iff]
          push_neg
          omega
      · rw [if_neg hb4]
        exact hwf

theorem wf_insert {vm vm2 : VirtualMemory} {seg : Segment} (hwf : WF vm)
    (h : vm.insert seg = (vm2, none)) : WF vm2 := by
  unfold VirtualMemory.insert at h
  by_cases hemp : seg.data.isEmpty
  · rw [if_pos hemp] at h
    have h1 := congrArg Prod.fst h
    simp only at h1
    rw [← h1]
    exact hwf
  · rw [if_neg hemp] at h
    by_cases hov : (vm.get_overlapping seg.start seg.data.length).isEmpty
    · rw [if_pos hov] at h
      have h1 := congrArg Prod.fst h
      simp only at h1
      rw [← h1]
      have hnil : vm.get_overlapping seg.start seg.data.length = [] := by
        rwa [List.isEmpty_iff] at hov
      have hspec := (get_overlapping_nil hwf).1 hnil
      have hnes : seg.data ≠ [] := by
        intro hc
        rw [hc] at hemp
        simp at hemp
      refine wf_insert_disjoint seg hwf ?_ hnes
      intro e he
      by_contra hnd
      apply hspec e.1
      refine ⟨e.2, by rw [Prod.mk.eta]; exact he, ?_⟩
      have hnee := wf_nonempty hwf _ he
      have hpose : 0 < e.2.data.length := List.length_pos_of_ne_nil hnee
      unfold entryDisj segEnd at hnd
      unfold segEnd
      simp only at hnd
      push_neg at hnd
      omega
    · rw [if_neg hov] at h
      have h2 := congrArg Prod.snd h
      simp at h2

theorem resize_get_ne {vm : VirtualMemory} {k ds dl k2 : Nat} (hwf : WF vm)
    (hne : k2 ≠ k) (hne2 : k2 ≠ ds + dl) :
    btreeGet k2 (vm.resize_or_unmap_or_split_segment k ds dl).segments
      = btreeGet k2 vm.segments := by
  unfold VirtualMemory.resize_or_unmap_or_split_segment
  cases hget : btreeGet k vm.segments with
  | none => rfl
  | some seg =>
    have hk : k = seg.start := wf_keys hwf _ (btreeGet_mem hget)
    simp only []
    by_cases hb1 : ds ≤ seg.start ∧ ds + dl ≥ seg.start + seg.data.length
    · rw [if_pos hb1]
      exact btreeGet_remove_ne hne
    · rw [if_neg hb1]
      by_cases hb2 : ds ≤ seg.start ∨ ds + dl ≥ seg.start + seg.data.length
      · rw [if_pos hb2]
        by_cases hb3 : seg.start < ds
        · rw [if_pos hb3]
          simp only []
          rw [btreeGet_insert_ne (by omega), btreeGet_remove_ne hne]
        · rw [if_neg hb3]
          simp only []
          rw [btreeGet_insert_ne (by omega), btreeGet_remove_ne hne]
      · rw [if_neg hb2]
        by_cases hb4 : ds > seg.start ∧ ds + dl < seg.start + seg.data.length
        · rw [if_pos hb4]
          simp only []
          rw [btreeGet_insert_ne (by omega), btreeGet_insert_ne (by omega),
            btreeGet_remove_ne hne]
        · rw [if_neg hb4]

theorem getLastD_mem {l : List Nat} (d : Nat) (h : l ≠ []) : l.getLastD d ∈ l := by
  induction l generalizing d with
  | nil => exact absurd rfl h
  | cons a t ih =>
    rw [List.getLastD_cons]
    cases t with
    | nil => simp [List.getLastD]
    | cons b t2 => exact List.mem_cons_of_mem _ (ih a (by simp))

theorem wf_unmap_multi_aux {vm : VirtualMemory} {s l k1 k2 : Nat} {rest : List Nat}
    (hwf : WF vm) (hov : vm.get_overlapping s l = k1 :: k2 :: rest) :
    WF ((vm.resize_or_unmap_or_split_segment k1 s l
      ).resize_or_unmap_or_split_segment ((k2 :: rest).getLastD 0) s l) := by
  have hk1mem : k1 ∈ vm.get_overlapping s l := by
    rw [hov]
    exact List.mem_cons_self _ _
  obtain ⟨seg1, hm1, hd1⟩ := (get_overlapping_mem hwf).1 hk1mem
  have hget1 : btreeGet k1 vm.segments = some seg1 :=
    btreeGet_of_mem (wf_sorted hwf) hm1
  have hk1 : k1 = seg1.start := wf_keys hwf _ hm1
  have hle1 : seg1.start ≤ s + l := by
    rcases hd1 with h | h
    · unfold segEnd at h
      omega
    · omega
  have hsorted_ov := get_overlapping_sorted s l hwf
  rw [hov] at hsorted_ov
  set kl := (k2 :: rest).getLastD 0 with hkldef
  have hlmem : kl ∈ k2 :: rest := getLastD_mem _ (by simp)
  have hlmem_ov : kl ∈ vm.get_overlapping s l := by
    rw [hov]
    exact List.mem_cons_of_mem _ hlmem
  obtain ⟨segl, hml, hdl⟩ := (get_overlapping_mem hwf).1 hlmem_ov
  have hkl : kl = segl.start := wf_keys hwf _ hml
  have hk1lt : k1 < kl :=
    (List.pairwise_cons.1 hsorted_ov).1 _ hlmem
  have hllt : kl < s + l := by
    rcases hdl with h | h
    · rcases hd1 with h1 | h1
      · have heq := contains_unique hwf hm1 hml
          (a := (k1, seg1)) ⟨h1.1, h1.2⟩ ⟨h.1, h.2⟩
        have h3 := congrArg Prod.fst heq
        simp only at h3
        omega
      · omega
    · omega
  have hwf1 : WF (vm.resize_or_unmap_or_split_segment k1 s l) :=
    wf_resize hwf hget1 hle1
  have hgetl : btreeGet kl
      (vm.resize_or_unmap_or_split_segment k1 s l).segments = some segl := by
    rw [resize_get_ne hwf (by omega) (by omega)]
    exact btreeGet_of_mem (wf_sorted hwf) hml
  exact wf_resize hwf1 hgetl (by omega)

theorem wf_unmap {vm : VirtualMemory} (hwf : WF vm) (s l : Nat) :
    WF (vm.unmap s l).1 := by
  unfold VirtualMemory.unmap
  cases hov : vm.get_overlapping s l with
  | nil => exact hwf
  | cons k1 tl =>
    have hk1mem : k1 ∈ vm.get_overlapping s l := by
      rw [hov]
      exact List.mem_cons_self _ _
    obtain ⟨seg1, hm1, hd1⟩ := (get_overlapping_mem hwf).1 hk1mem
    have hget1 : btreeGet k1 vm.segments = some seg1 :=
      btreeGet_of_mem (wf_sorted hwf) hm1
    have hk1 : k1 = seg1.start := wf_keys hwf _ hm1
    have hle1 : seg1.start ≤ s + l := by
      rcases hd1 with h | h
      · unfold segEnd at h
        omega
      · omega
    cases tl with
    | nil =>
      simp only []
      exact wf_resize hwf hget1 hle1
    | cons k2 rest =>
      simp only []
      exact wf_foldl_remove (wf_unmap_multi_aux hwf hov)

theorem wf_reachable {vm : VirtualMemory} (h : Reachable vm) : WF vm := by
  induction h with
  | empty => exact wf_empty
  | insert h1 h2 ih => exact wf_insert ih h2
  | unmap h1 h2 ih =>
    rename_i vm0 vm2 s l
    have hw := wf_unmap ih s l
    rw [h2] at hw
    exact hw

theorem get_overlapping_mem_intersect {vm : VirtualMemory} {new len k : Nat}
    (hwf : WF vm) (hlen : 0 < len) :
    k ∈ vm.get_overlapping new len ↔ ∃ s2, (k, s2) ∈ vm.segments ∧
      rangesIntersect new len s2.start s2.data.length := by
  rw [get_overlapping_mem hwf]
  unfold overlapsSpec
  constructor
  · rintro ⟨s2, hm, hd⟩
    refine ⟨s2, hm, ?_⟩
    have hpos : 0 < s2.data.length :=
      List.length_pos_of_ne_nil (wf_nonempty hwf _ hm)
    unfold segEnd at hd
    unfold rangesIntersect
    omega
  · rintro ⟨s2, hm, hd⟩
    refine ⟨s2, hm, ?_⟩
    have hpos : 0 < s2.data.length :=
      List.length_pos_of_ne_nil (wf_nonempty hwf _ hm)
    unfold rangesIntersect at hd
    unfold segEnd
    omega

/-- C1: starting from the empty AddressSpace, after any sequence of successful
`insert` and `unmap` calls, the half-open ranges of distinct stored segments
never intersect, every map key equals its segment's `start` field, and no
stored segment has empty data. -/
theorem reachable_invariants (vm : VirtualMemory) (h : Reachable vm) :
    (∀ a ∈ vm.segments, ∀ b ∈ vm.segments, a ≠ b →
        ¬ rangesIntersect a.2.start a.2.data.length b.2.start b.2.data.length)
    ∧ (∀ e ∈ vm.segments, e.1 = e.2.start)
    ∧ (∀ e ∈ vm.segments, e.2.data ≠ []) := by
  have hwf := wf_reachable h
  refine ⟨?_, wf_keys hwf, wf_nonempty hwf⟩
  intro a ha b hb hne
  have hd := (wf_disj hwf).forall entryDisj_symm ha hb hne
  unfold entryDisj segEnd at hd
  unfold rangesIntersect
  omega

theorem reachable_invariants_witness :
    (∀ a ∈ vmOne.segments, ∀ b ∈ vmOne.segments, a ≠ b →
        ¬ rangesIntersect a.2.start a.2.data.length b.2.start b.2.data.length)
    ∧ (∀ e ∈ vmOne.segments, e.1 = e.2.start)
    ∧ (∀ e ∈ vmOne.segments, e.2.data ≠ []) :=
  reachable_invariants vmOne
    (@Reachable.insert VirtualMemory.empty vmOne ⟨10, protNone, [1, 2, 3]⟩ Reachable.empty (by decide))

/-- C2: inserting a non-empty segment whose range intersects at least one
stored segment fails with an `InsertOverlap` error whose `new` field is the
segment's start and whose `overlapping` field is the strictly ascending list
of the starts of exactly the intersecting stored segments, and the address
space is left unchanged. -/
theorem insert_rejects_overlap (vm : VirtualMemory) (seg : Segment) (hwf : WF vm)
    (hne : seg.data ≠ [])
    (hov : ∃ e ∈ vm.segments,
      rangesIntersect seg.start seg.data.length e.2.start e.2.data.length) :
    ∃ os, vm.insert seg = (vm, some (Error.InsertOverlap seg.start os))
      ∧ os.Pairwise (fun a b => a < b)
      ∧ ∀ k, k ∈ os ↔ ∃ s2, (k, s2) ∈ vm.segments ∧
          rangesIntersect seg.start seg.data.length s2.start s2.data.length := by
  have hlen : 0 < seg.data.length := List.length_pos_of_ne_nil hne
  obtain ⟨e, he, hint⟩ := hov
  have hovne : vm.get_overlapping seg.start seg.data.length ≠ [] := by
    apply List.ne_nil_of_mem (a := e.1)
    rw [get_overlapping_mem_intersect hwf hlen]
    exact ⟨e.2, by rw [Prod.mk.eta]; exact he, hint⟩
  refine ⟨vm.get_overlapping seg.start seg.data.length, ?_,
    get_overlapping_sorted seg.start seg.data.length hwf,
    fun k => get_overlapping_mem_intersect hwf hlen⟩
  unfold VirtualMemory.insert
  rw [if_neg (by simp [hne]), if_neg (by simp [hovne])]

theorem insert_rejects_overlap_witness :
    ∃ os, vmMulti.insert ⟨12, protNone, List.replicate 10 0⟩
        = (vmMulti, some (Error.InsertOverlap 12 os))
      ∧ os.Pairwise (fun a b => a < b)
      ∧ ∀ k, k ∈ os ↔ ∃ s2, (k, s2) ∈ vmMulti.segments ∧
          rangesIntersect 12 (List.replicate 10 (0 : Nat)).length
            s2.start s2.data.length :=
  insert_rejects_overlap vmMulti ⟨12, protNone, List.replicate 10 0⟩
    (by decide) (by decide) ⟨(10, ⟨10, protNone, [1, 2, 3]⟩), by decide, by decide⟩

/-- C5 counterexample: the range `[11, 11)` is empty and intersects no stored
segment of `vmOne`, yet `unmap(11, 0)` succeeds and changes the address space
(the segment `[10, 13)` is split in two). -/
theorem unmap_empty_range_changes_state :
    (∀ e ∈ vmOne.segments, ¬ rangesIntersect 11 0 e.2.start e.2.data.length)
    ∧ (vmOne.unmap 11 0).2 = none
    ∧ (vmOne.unmap 11 0).1 ≠ vmOne := by decide

/-- C5 amended: whenever the range `[start, start+len)` intersects no stored
segment AND `start` is not contained in any stored segment (for `len > 0` the
second condition is implied by the first; for `len = 0` it excludes the
segment-splitting case), `unmap` returns success and leaves the address space
completely unchanged. -/
theorem unmap_no_overlap_noop (vm : VirtualMemory) (s l : Nat) (hwf : WF vm)
    (hno : ∀ e ∈ vm.segments, ¬ rangesIntersect s l e.2.start e.2.data.length)
    (hnc : ∀ e ∈ vm.segments, ¬ (e.2.start ≤ s ∧ s < segEnd e.2)) :
    vm.unmap s l = (vm, none) := by
  have hov : vm.get_overlapping s l = [] := by
    rw [get_overlapping_nil hwf]
    rintro k ⟨s2, hm, hd | hd⟩
    · exact hnc _ hm ⟨hd.1, hd.2⟩
    · apply hno _ hm
      have hpos : 0 < s2.data.length :=
        List.length_pos_of_ne_nil (wf_nonempty hwf _ hm)
      show rangesIntersect s l s2.start s2.data.length
      unfold rangesIntersect
      omega
  unfold VirtualMemory.unmap
  rw [hov]

theorem unmap_no_overlap_noop_witness :
    vmOne.unmap 100 5 = (vmOne, none) :=
  unmap_no_overlap_noop vmOne 100 5 (by decide) (by decide) (by decide)

/-- C9: for a kept loadable entry with `file offset` 0, `file size` 2 and
`memory size` 4 in an 8-byte container, the code produces the 2-byte buffer
`[1, 2]` — the first `file size` bytes of the container — and does NOT
zero-fill it up to `memory size` 4 as the specification requires. -/
theorem read_elf_no_zero_fill :
    segmentData [1, 2, 3, 4, 5, 6, 7, 8] 0 2 4 = some [1, 2]
    ∧ Option.map List.length (segmentData [1, 2, 3, 4, 5, 6, 7, 8] 0 2 4)
        ≠ some 4 := by decide

theorem rangeKeys_self {l : List (Nat × Segment)} (x : Nat) : rangeKeys l x x = [] := by
  rw [List.eq_nil_iff_forall_not_mem]
  intro k hk
  obtain ⟨v, _, h1, h2⟩ := rangeKeys_mem.1 hk
  omega

/-- C4: an unmap range lying strictly inside a single stored segment replaces
it by a head `[orig_start, del_start)` and a tail `[del_end, orig_end)`, each
inheriting the protection and the corresponding byte slice of the original. -/
theorem unmap_interior_split (vm : VirtualMemory) (k ds dl : Nat) (seg : Segment)
    (hwf : WF vm) (hmem : (k, seg) ∈ vm.segments)
    (h1 : seg.start < ds) (h2 : ds + dl < segEnd seg) :
    vm.unmap ds dl =
      (⟨btreeInsert (ds + dl)
          ⟨ds + dl, seg.protection, seg.data.drop (ds + dl - seg.start)⟩
          (btreeInsert seg.start
            ⟨seg.start, seg.protection, seg.data.take (ds - seg.start)⟩
            (btreeRemove k vm.segments))⟩, none) := by
  have hk := wf_keys hwf _ hmem
  simp only at hk
  subst hk
  unfold segEnd at h2
  have hsegok : vm.get_segment ds = Except.ok seg :=
    get_segment_of_contains hwf hmem (by omega) (by unfold segEnd; omega)
  have hov : vm.get_overlapping ds dl = [seg.start] := by
    unfold VirtualMemory.get_overlapping
    rw [hsegok]
    simp only []
    rw [if_neg (by omega)]
    simp only []
    rw [rangeKeys_self]
  unfold VirtualMemory.unmap
  rw [hov]
  simp only []
  unfold VirtualMemory.resize_or_unmap_or_split_segment
  rw [btreeGet_of_mem (wf_sorted hwf) hmem]
  simp only []
  rw [if_neg (by omega), if_neg (by omega), if_pos (by omega)]

theorem unmap_interior_split_witness :
    vmInterior.unmap 1236 2
      = (⟨[(1234, ⟨1234, protAll, [1, 2]⟩),
           (1238, ⟨1238, protAll, [5, 6]⟩)]⟩, none) := by
  rw [unmap_interior_split vmInterior 1234 1236 2 ⟨1234, protAll, [1, 2, 3, 4, 5, 6]⟩
    (by decide) (by decide) (by decide) (by decide)]
  decide

/-- C3: when an unmap range overlaps several segments, every overlapping
segment strictly between the first and the last is removed entirely; and
concretely, with segments at `10`, `20`, `30` of length 3 each, `unmap(0, 22)`
leaves exactly a segment at `22` holding the trailing byte of the second
segment and the untouched third segment at `30`. -/
theorem unmap_multi_span :
    (∀ (vm : VirtualMemory) (s l k1 k2 : Nat) (rest : List Nat), WF vm →
        vm.get_overlapping s l = k1 :: k2 :: rest →
        ∀ k ∈ (k2 :: rest).dropLast,
          btreeGet k (vm.unmap s l).1.segments = none)
    ∧ vmMulti.unmap 0 22
        = (⟨[(22, ⟨22, protNone, [6]⟩), (30, ⟨30, protNone, [7, 8, 9]⟩)]⟩, none) := by
  constructor
  · intro vm s l k1 k2 rest hwf hov k hk
    have hwf2 := wf_unmap_multi_aux hwf hov
    unfold VirtualMemory.unmap
    rw [hov]
    simp only []
    exact btreeGet_mem_foldl_remove hk (wf_sorted hwf2)
  · decide

theorem unmap_multi_span_witness :
    btreeGet 20 (vmMulti.unmap 0 33).1.segments = none :=
  unmap_multi_span.1 vmMulti 0 33 10 20 [30] (by decide) (by decide) 20 (by decide)

theorem get_segment_key_of_contains {vm : VirtualMemory} {k addr : Nat} {seg : Segment}
    (hwf : WF vm) (hm : (k, seg) ∈ vm.segments) (h1 : seg.start ≤ addr)
    (h2 : addr < segEnd seg) : vm.get_segment_key addr = some k := by
  have hk : k = seg.start := wf_keys hwf _ hm
  have hmax : ∀ e ∈ vm.segments, k < e.1 → addr < e.1 := by
    intro e he hlt
    have hne : (k, seg) ≠ e := by
      intro hcontra
      rw [← hcontra] at hlt
      omega
    have hd := (wf_disj hwf).forall entryDisj_symm hm he hne
    have hke := wf_keys hwf _ he
    have hnee := wf_nonempty hwf _ he
    have hpos : 0 < e.2.data.length := List.length_pos_of_ne_nil hnee
    unfold entryDisj segEnd at hd
    unfold segEnd at h2
    simp only at hd
    omega
  have hlast : lastEntryLE addr vm.segments = some (k, seg) :=
    lastEntryLE_eq (wf_sorted hwf) hm (by omega) hmax
  unfold VirtualMemory.get_segment_key
  rw [hlast]
  simp only []
  rw [if_pos ⟨h1, h2⟩]

theorem get_segment_key_unmapped {vm : VirtualMemory} {addr : Nat}
    (h : ∀ e ∈ vm.segments, ¬ (e.2.start ≤ addr ∧ addr < segEnd e.2)) :
    vm.get_segment_key addr = none := by
  unfold VirtualMemory.get_segment_key
  cases hle : lastEntryLE addr vm.segments with
  | none => rfl
  | some e =>
    simp only []
    obtain ⟨hmem, hkle⟩ := lastEntryLE_mem hle
    have hne := h _ hmem
    unfold segEnd at hne
    rw [if_neg (fun hc : addr ≥ e.2.start ∧ addr < e.2.start + e.2.data.length =>
      hne ⟨hc.1, hc.2⟩)]

theorem check_protection_read (addr : Nat) (av : Protection) :
    VirtualMemory.check_protection addr av ⟨true, false, false⟩
      = if av.r then Except.ok () else
          Except.error (Error.Protection addr av ⟨true, false, false⟩) := by
  obtain ⟨r, w, x⟩ := av
  cases r <;> cases w <;> cases x <;> rfl

theorem check_protection_write (addr : Nat) (av : Protection) :
    VirtualMemory.check_protection addr av ⟨false, true, false⟩
      = if av.w then Except.ok () else
          Except.error (Error.Protection addr av ⟨false, true, false⟩) := by
  obtain ⟨r, w, x⟩ := av
  cases r <;> cases w <;> cases x <;> rfl

theorem wf_btreeSet {vm : VirtualMemory} {k : Nat} {seg : Segment} (seg2 : Segment)
    (hwf : WF vm) (hm : (k, seg) ∈ vm.segments)
    (hst : seg2.start = seg.start) (hln : seg2.data.length = seg.data.length)
    (hne : seg2.data ≠ []) : WF ⟨btreeSet k seg2 vm.segments⟩ := by
  obtain ⟨hs, hk, hnel, hdl⟩ := hwf
  have hkk : k = seg.start := by
    have := hk _ hm
    simpa using this
  refine ⟨keysSorted_of_map_fst_eq btreeSet_map_fst hs, ?_, ?_,
    btreeSet_pairwise_disj hst hln hs hm hdl⟩
  · intro e he
    rcases btreeSet_mem he with h | h
    · rw [h]
      simp only
      rw [hst]
      exact hkk
    · exact hk e h
  · intro e he
    rcases btreeSet_mem he with h | h
    · rw [h]
      exact hne
    · exact hnel e h
/-- Evaluation of `read` on an address contained in a stored segment. -/
theorem read_eval {vm : VirtualMemory} {k addr : Nat} {seg : Segment}
    (hwf : WF vm) (hmem : (k, seg) ∈ vm.segments)
    (h1 : seg.start ≤ addr) (h2 : addr < segEnd seg) :
    vm.read addr = if seg.protection.r then
        Except.ok (seg.data.getD (addr - seg.start) 0)
      else Except.error (Error.Protection addr seg.protection ⟨true, false, false⟩) := by
  unfold VirtualMemory.read
  rw [get_segment_of_contains hwf hmem h1 h2]
  simp only []
  rw [check_protection_read]
  by_cases hp : seg.protection.r = true
  · rw [if_pos hp, if_pos hp]
  · rw [if_neg hp, if_neg hp]

/-- Evaluation of `read_slice` on an address contained in a stored segment:
the protection check comes first, then the bounds check. -/
theorem read_slice_eval {vm : VirtualMemory} {k addr : Nat} (len : Nat) {seg : Segment}
    (hwf : WF vm) (hmem : (k, seg) ∈ vm.segments)
    (h1 : seg.start ≤ addr) (h2 : addr < segEnd seg) :
    vm.read_slice addr len = if seg.protection.r then
        (if addr + len ≤ segEnd seg then
          Except.ok ((seg.data.drop (addr - seg.start)).take len)
        else Except.error (Error.SliceOutOfBounds addr len))
      else Except.error (Error.Protection addr seg.protection ⟨true, false, false⟩) := by
  unfold VirtualMemory.read_slice
  rw [get_segment_of_contains hwf hmem h1 h2]
  simp only []
  rw [check_protection_read]
  by_cases hp : seg.protection.r = true
  · rw [if_pos hp, if_pos hp]
    simp only []
    by_cases hb : addr + len ≤ segEnd seg
    · unfold segEnd at hb
      rw [if_neg (by omega), if_pos (by unfold segEnd; omega)]
    · unfold segEnd at hb
      rw [if_pos (by omega), if_neg (by unfold segEnd; omega)]
  · rw [if_neg hp, if_neg hp]

/-- Evaluation of `write` on an address contained in a stored segment. -/
theorem write_eval {vm : VirtualMemory} {k addr val : Nat} {seg : Segment}
    (hwf : WF vm) (hmem : (k, seg) ∈ vm.segments)
    (h1 : seg.start ≤ addr) (h2 : addr < segEnd seg) :
    vm.write addr val = if seg.protection.w then
        (⟨btreeSet k { seg with data := seg.data.set (addr - seg.start) val }
          vm.segments⟩, none)
      else (vm, some (Error.Protection addr seg.protection ⟨false, true, false⟩)) := by
  unfold VirtualMemory.write
  rw [get_segment_key_of_contains hwf hmem h1 h2]
  simp only []
  rw [btreeGet_of_mem (wf_sorted hwf) hmem]
  simp only []
  rw [check_protection_write]
  by_cases hp : seg.protection.w = true
  · rw [if_pos hp, if_pos hp]
  · rw [if_neg hp, if_neg hp]

/-- Evaluation of `write_slice` on an address contained in a stored segment:
the protection check comes first, then the bounds check. -/
theorem write_slice_eval {vm : VirtualMemory} {k addr : Nat} (buf : List Nat)
    {seg : Segment} (hwf : WF vm) (hmem : (k, seg) ∈ vm.segments)
    (h1 : seg.start ≤ addr) (h2 : addr < segEnd seg) :
    vm.write_slice addr buf = if seg.protection.w then
        (if addr + buf.length ≤ segEnd seg then
          (⟨btreeSet k
            { seg with data := seg.data.take (addr - seg.start) ++ buf
                ++ seg.data.drop (addr - seg.start + buf.length) }
            vm.segments⟩, none)
        else (vm, some (Error.SliceOutOfBounds addr buf.length)))
      else (vm, some (Error.Protection addr seg.protection ⟨false, true, false⟩)) := by
  unfold VirtualMemory.write_slice
  rw [get_segment_key_of_contains hwf hmem h1 h2]
  simp only []
  rw [btreeGet_of_mem (wf_sorted hwf) hmem]
  simp only []
  rw [check_protection_write]
  by_cases hp : seg.protection.w = true
  · rw [if_pos hp, if_pos hp]
    simp only []
    by_cases hb : addr + buf.length ≤ segEnd seg
    · unfold segEnd at hb
      rw [if_neg (by omega), if_pos (by unfold segEnd; omega)]
    · unfold segEnd at hb
      rw [if_pos (by omega), if_neg (by unfold segEnd; omega)]
  · rw [if_neg hp, if_neg hp]

/-- C6 counterexample: on a mapped, writable (but not readable) region the
`write_slice` succeeds, yet the subsequent `read_slice` fails with a
`Protection` error instead of returning the written buffer, so the claim as
stated fails for writable-only regions. -/
theorem write_read_roundtrip_cex :
    (vmWriteOnly.write_slice 0 [5]).2 = none
    ∧ (vmWriteOnly.write_slice 0 [5]).1.read_slice 0 1
        = Except.error (Error.Protection 0 protW ⟨true, false, false⟩) := by decide

/-- C6 amended: for any mapped, readable and writable region and any `addr`
and `buf` such that `[addr, addr + len(buf))` lies fully inside one stored
segment, `write_slice(addr, buf)` succeeds and a subsequent
`read_slice(addr, len(buf))` succeeds and returns exactly `buf`. -/
theorem write_read_roundtrip (vm : VirtualMemory) (k addr : Nat) (seg : Segment)
    (buf : List Nat) (hwf : WF vm) (hmem : (k, seg) ∈ vm.segments)
    (hr : seg.protection.r = true) (hw : seg.protection.w = true)
    (h1 : seg.start ≤ addr) (h2 : addr < segEnd seg)
    (h3 : addr + buf.length ≤ segEnd seg) :
    ∃ vm2, vm.write_slice addr buf = (vm2, none)
      ∧ vm2.read_slice addr buf.length = Except.ok buf := by
  have hkk := wf_keys hwf _ hmem
  simp only at hkk
  subst hkk
  have hw2 := write_slice_eval buf hwf hmem h1 h2
  rw [if_pos hw, if_pos h3] at hw2
  refine ⟨_, hw2, ?_⟩
  unfold segEnd at h2 h3
  have hposd : 0 < seg.data.length := by omega
  have hlen2 : (seg.data.take (addr - seg.start) ++ buf
      ++ seg.data.drop (addr - seg.start + buf.length)).length = seg.data.length := by
    simp only [List.length_append, List.length_take, List.length_drop]
    omega
  have hwf2 := wf_btreeSet
    { seg with data := seg.data.take (addr - seg.start) ++ buf
        ++ seg.data.drop (addr - seg.start + buf.length) } hwf hmem rfl hlen2
    (List.ne_nil_of_length_pos (by rw [hlen2]; exact hposd))
  have hmem2 := btreeSet_mem_self
    (v := { seg with data := seg.data.take (addr - seg.start) ++ buf
        ++ seg.data.drop (addr - seg.start + buf.length) }) hmem
  have hr2 := read_slice_eval buf.length hwf2 hmem2 h1
    (by unfold segEnd; simp only [hlen2]; omega)
  rw [if_pos hr, if_pos (by unfold segEnd; simp only [hlen2]; omega)] at hr2
  rw [hr2]
  congr 1
  show ((seg.data.take (addr - seg.start) ++ buf
      ++ seg.data.drop (addr - seg.start + buf.length)).drop (addr - seg.start)
        ).take buf.length = buf
  have htl : (seg.data.take (addr - seg.start)).length = addr - seg.start := by
    rw [List.length_take]
    omega
  rw [List.append_assoc, List.drop_left' htl, List.take_left' rfl]

theorem write_read_roundtrip_witness :
    ∃ vm2, vmSix.write_slice 1235 [7, 7, 7] = (vm2, none)
      ∧ vm2.read_slice 1235 ([7, 7, 7] : List Nat).length = Except.ok [7, 7, 7] :=
  write_read_roundtrip vmSix 1234 1235 ⟨1234, protAll, [1, 2, 3, 4, 5, 6]⟩
    [7, 7, 7] (by decide) (by decide) (by decide) (by decide) (by decide)
    (by decide) (by decide)

/-- C7: the protection check succeeds iff the required capability set is a
subset of the available set; consequently, on a segment with protection
`{r:false, w:false, x:false}`, every read and every write fails with a
`Protection` error carrying the address, available and required capabilities,
and the address space (hence the segment's bytes) is left unchanged. -/
theorem protection_subset_check :
    (∀ (addr : Nat) (av req : Protection),
        VirtualMemory.check_protection addr av req = Except.ok ()
          ↔ ((req.r → av.r) ∧ (req.w → av.w) ∧ (req.x → av.x)))
    ∧ (∀ (vm : VirtualMemory) (k addr val : Nat) (seg : Segment), WF vm →
        (k, seg) ∈ vm.segments → seg.protection = ⟨false, false, false⟩ →
        seg.start ≤ addr → addr < segEnd seg →
        vm.read addr
          = Except.error (Error.Protection addr seg.protection ⟨true, false, false⟩)
        ∧ vm.write addr val
          = (vm, some (Error.Protection addr seg.protection ⟨false, true, false⟩))) := by
  constructor
  · intro addr av req
    obtain ⟨ar, aw, ax⟩ := av
    obtain ⟨br, bw, bx⟩ := req
    unfold VirtualMemory.check_protection Protection.band
    cases br <;> cases bw <;> cases bx <;> cases ar <;> cases aw <;> cases ax <;> simp
  · intro vm k addr val seg hwf hmem hprot h1 h2
    constructor
    · rw [read_eval hwf hmem h1 h2, hprot]
      rfl
    · rw [write_eval hwf hmem h1 h2, hprot]
      rfl

theorem protection_subset_check_witness :
    vmNoAccess.read 1
      = Except.error (Error.Protection 1 protNone ⟨true, false, false⟩)
    ∧ vmNoAccess.write 1 9
      = (vmNoAccess, some (Error.Protection 1 protNone ⟨false, true, false⟩)) :=
  protection_subset_check.2 vmNoAccess 0 1 9 ⟨0, protNone, [1, 2]⟩
    (by decide) (by decide) (by decide) (by decide) (by decide)

/-- C8: on a readable (resp. writable) segment containing `addr`,
`read_slice` (resp. `write_slice`) succeeds iff
`addr + len ≤ start + len(data)`; a request extending past the containing
segment's end — even into an adjacent mapped segment — fails with
`SliceOutOfBounds{addr, len}`. -/
theorem slice_bounds (vm : VirtualMemory) (k addr len : Nat) (seg : Segment)
    (hwf : WF vm) (hmem : (k, seg) ∈ vm.segments)
    (h1 : seg.start ≤ addr) (h2 : addr < segEnd seg) :
    (seg.protection.r = true →
      ((∃ out, vm.read_slice addr len = Except.ok out) ↔ addr + len ≤ segEnd seg)
      ∧ (segEnd seg < addr + len →
          vm.read_slice addr len = Except.error (Error.SliceOutOfBounds addr len)))
    ∧ (seg.protection.w = true → ∀ buf : List Nat, buf.length = len →
      ((vm.write_slice addr buf).2 = none ↔ addr + len ≤ segEnd seg)
      ∧ (segEnd seg < addr + len →
          vm.write_slice addr buf = (vm, some (Error.SliceOutOfBounds addr len)))) := by
  constructor
  · intro hr
    have he := read_slice_eval len hwf hmem h1 h2
    rw [if_pos hr] at he
    constructor
    · constructor
      · rintro ⟨out, hout⟩
        by_contra hb
        rw [if_neg hb] at he
        rw [he] at hout
        exact Except.noConfusion hout
      · intro hb
        rw [if_pos hb] at he
        exact ⟨_, he⟩
    · intro hb
      rw [if_neg (by omega)] at he
      exact he
  · intro hw buf hbl
    subst hbl
    have he := write_slice_eval buf hwf hmem h1 h2
    rw [if_pos hw] at he
    constructor
    · constructor
      · intro hsnd
        by_contra hb
        rw [if_neg hb] at he
        rw [he] at hsnd
        simp at hsnd
      · intro hb
        rw [if_pos hb] at he
        rw [he]
    · intro hb
      rw [if_neg (by omega)] at he
      exact he

theorem slice_bounds_witness :
    vmSix.read_slice 1234 7 = Except.error (Error.SliceOutOfBounds 1234 7) :=
  ((slice_bounds vmSix 1234 1234 7 ⟨1234, protAll, [1, 2, 3, 4, 5, 6]⟩
    (by decide) (by decide) (by decide) (by decide)).1 (by decide)).2 (by decide)

/-- C10: the error checks are ordered — `UnmappedAddress` is returned when no
stored segment contains `addr`; otherwise `Protection` is returned when the
required capability is missing, even when the request also exceeds the
containing segment's bound, so such a slice call returns the `Protection`
error and not `SliceOutOfBounds`. -/
theorem error_priority (vm : VirtualMemory) (addr len : Nat) :
    ((∀ e ∈ vm.segments, ¬ (e.2.start ≤ addr ∧ addr < segEnd e.2)) →
      vm.read addr = Except.error (Error.UnmappedAddress addr)
      ∧ vm.read_slice addr len = Except.error (Error.UnmappedAddress addr)
      ∧ (∀ val, vm.write addr val = (vm, some (Error.UnmappedAddress addr)))
      ∧ (∀ buf : List Nat,
          vm.write_slice addr buf = (vm, some (Error.UnmappedAddress addr))))
    ∧ (∀ (k : Nat) (seg : Segment), WF vm → (k, seg) ∈ vm.segments →
        seg.start ≤ addr → addr < segEnd seg → segEnd seg < addr + len →
        (seg.protection.r = false →
          vm.read_slice addr len
            = Except.error (Error.Protection addr seg.protection ⟨true, false, false⟩))
        ∧ (seg.protection.w = false → ∀ buf : List Nat, buf.length = len →
          vm.write_slice addr buf
            = (vm, some (Error.Protection addr seg.protection ⟨false, true, false⟩)))) := by
  constructor
  · intro h
    have hkey := get_segment_key_unmapped h
    have hseg := get_segment_unmapped h
    refine ⟨?_, ?_, ?_, ?_⟩
    · unfold VirtualMemory.read
      rw [hseg]
    · unfold VirtualMemory.read_slice
      rw [hseg]
    · intro val
      unfold VirtualMemory.write
      rw [hkey]
    · intro buf
      unfold VirtualMemory.write_slice
      rw [hkey]
  · intro k seg hwf hmem h1 h2 hoob
    constructor
    · intro hr
      have he := read_slice_eval len hwf hmem h1 h2
      rw [if_neg (by simp [hr])] at he
      exact he
    · intro hw buf hbl
      have he := write_slice_eval buf hwf hmem h1 h2
      rw [if_neg (by simp [hw])] at he
      exact he

theorem error_priority_witness :
    vmNoAccess.read_slice 1 5
      = Except.error (Error.Protection 1 protNone ⟨true, false, false⟩) :=
  ((error_priority vmNoAccess 1 5).2 0 ⟨0, protNone, [1, 2]⟩ (by decide) (by decide)
    (by decide) (by decide) (by decide)).1 (by decide)

end Risky
